import Mathlib

/-!
Verification development for the thought-ledger bot (src/main.py).

The Python source is shallowly embedded:

* the compiled regular expression
  (?i)\bsometimes\s+i\s+think\s+(?:a\s+lot\s+)?about\s+(.+?)(?=[\.\n]|$)
  together with re.findall is embedded as a specialized scanner over List Char
  (reFindall), following the backtracking semantics of the pattern;
* Python dicts become association lists (aset / adel / alookup / agetD) with
  dict update-in-place / append-at-end ordering;
* the ledger JSON file becomes a Ledger value; each handler becomes a function
  from the loaded Ledger to the Ledger it saves;
* store I/O performed by a handler is recorded as a List StoreEvent where a
  claim is about the load/save pattern rather than the resulting value.
-/

namespace ThoughtBot

/-- Python regex class \s restricted to ASCII (space, tab, newline, carriage
return, vertical tab, form feed), which is also what str.strip removes for the
ASCII range. -/
def isSpaceChar (c : Char) : Bool :=
  c = ' ' || c = '\t' || c = '\n' || c = '\r' || c = '\x0b' || c = '\x0c'

/-- Python regex class \w restricted to ASCII: letters, digits, underscore.
Used for the word boundary \b before "sometimes". -/
def isWordChar (c : Char) : Bool :=
  c.isAlpha || c.isDigit || c = '_'

/-- ASCII lower-casing, modelling the (?i) flag on the trigger words. -/
def lowerCh (c : Char) : Char :=
  if 'A' ≤ c ∧ c ≤ 'Z' then Char.ofNat (c.toNat + 32) else c

/-- Case-insensitive literal word match: w is given lower-case; on success
returns the rest of the input after the word. -/
def matchLit : List Char → List Char → Option (List Char)
  | [], s => some s
  | _ :: _, [] => none
  | c :: w, d :: s => if lowerCh d = c then matchLit w s else none

/-- \s+ immediately followed by a letter of the next trigger word: at least one
whitespace character, then maximal munch (shrinking the run can only place a
whitespace character where a letter is required, so greedy matching with
backtracking is equivalent to maximal munch here). -/
def spaces1 : List Char → Option (List Char)
  | [] => none
  | c :: rest => if isSpaceChar c then some (rest.dropWhile isSpaceChar) else none

/-- The characters on which the lookahead (?=[\.\n]|$) fires. -/
def isStopChar (c : Char) : Bool := c = '.' || c = '\n'

/-- (.+?)(?=[\.\n]|$) starting exactly here: the first character must exist and
must not be a newline (the dot does not match newline); the lazy capture then
extends to the first position at or after index 1 holding '.' or a newline, or
to the end of input.  Returns (capture, rest-at-lookahead-position). -/
def takeCapture : List Char → Option (List Char × List Char)
  | [] => none
  | c :: rest =>
    if c = '\n' then none
    else some (c :: rest.takeWhile (fun d => !isStopChar d),
               rest.dropWhile (fun d => !isStopChar d))

/-- The suffix of a list starting at its last character that is not a newline,
if any.  Used when \s+ must backtrack because the input ends in whitespace. -/
def lastNonNl : List Char → Option (List Char)
  | [] => none
  | c :: rest =>
    match lastNonNl rest with
    | some suf => some suf
    | none => if c = '\n' then none else some (c :: rest)

/-- \s+(.+?)(?=[\.\n]|$): greedy \s+ then the lazy capture.  When some text
follows the whitespace run the greedy attempt succeeds at once; when the input
ends inside the run, \s+ backtracks so that the capture starts at the last
non-newline whitespace character (consuming at least one whitespace first). -/
def captureAfterAbout (s : List Char) : Option (List Char × List Char) :=
  match s.takeWhile isSpaceChar with
  | [] => none
  | _ :: wsTail =>
    match takeCapture (s.dropWhile isSpaceChar) with
    | some r => some r
    | none =>
      match lastNonNl wsTail with
      | some suf => takeCapture suf
      | none => none

/-- (?:a\s+lot\s+)?about\s+(.+?)(?=[\.\n]|$), group taken. -/
def afterThinkGroup (s : List Char) : Option (List Char × List Char) :=
  match matchLit ['a'] s with
  | none => none
  | some s1 =>
    match spaces1 s1 with
    | none => none
    | some s2 =>
      match matchLit ['l', 'o', 't'] s2 with
      | none => none
      | some s3 =>
        match spaces1 s3 with
        | none => none
        | some s4 =>
          match matchLit ['a', 'b', 'o', 'u', 't'] s4 with
          | none => none
          | some s5 => captureAfterAbout s5

/-- about\s+(.+?)(?=[\.\n]|$), the optional group skipped. -/
def afterThinkNoGroup (s : List Char) : Option (List Char × List Char) :=
  match matchLit ['a', 'b', 'o', 'u', 't'] s with
  | none => none
  | some s5 => captureAfterAbout s5

/-- The tail of the pattern after "think\s+": the optional "a lot" group is
tried first (greedy ?), falling back to "about" directly. -/
def afterThink (s : List Char) : Option (List Char × List Char) :=
  match afterThinkGroup s with
  | some r => some r
  | none => afterThinkNoGroup s

/-- One anchored attempt of the whole pattern (the caller checks the word
boundary \b).  On success returns (capture, rest after the match); the match
ends exactly where the capture ends because the lookahead is zero-width. -/
def matchTrigger (s : List Char) : Option (List Char × List Char) :=
  match matchLit ['s', 'o', 'm', 'e', 't', 'i', 'm', 'e', 's'] s with
  | none => none
  | some s1 =>
    match spaces1 s1 with
    | none => none
    | some s2 =>
      match matchLit ['i'] s2 with
      | none => none
      | some s3 =>
        match spaces1 s3 with
        | none => none
        | some s4 =>
          match matchLit ['t', 'h', 'i', 'n', 'k'] s4 with
          | none => none
          | some s5 =>
            match spaces1 s5 with
            | none => none
            | some s6 => afterThink s6

/-- re.findall scanning loop: prevWord is whether the previous character is a
word character (for \b; false at the start of input); after a successful match
scanning resumes at the match end.  fuel bounds the recursion and is chosen
larger than the input length, which suffices since every step consumes at least
one character. -/
def findallAux : Nat → Bool → List Char → List (List Char)
  | 0, _, _ => []
  | _ + 1, _, [] => []
  | fuel + 1, prevWord, c :: rest =>
    if prevWord then findallAux fuel (isWordChar c) rest
    else
      match matchTrigger (c :: rest) with
      | some (cap, rem) => cap :: findallAux fuel (isWordChar (cap.getLastD 'x')) rem
      | none => findallAux fuel (isWordChar c) rest

/-- pattern.findall(text): all captures of the global search, in order. -/
def reFindall (s : List Char) : List (List Char) :=
  findallAux (s.length + 1) false s

/-- Python str.strip(): drop whitespace from both ends. -/
def pystrip (s : List Char) : List Char :=
  ((s.dropWhile isSpaceChar).reverse.dropWhile isSpaceChar).reverse

/-- The phrase extraction performed on a message body by on_message (and by the
scan loop): findall, strip each capture, silently drop captures that are empty
after stripping (src/main.py lines 306-316, 73-78). -/
def extractThoughts (s : List Char) : List (List Char) :=
  ((reFindall s).map pystrip).filter (fun t => t ≠ [])

/-- Whether the input contains the word "sometimes" case-insensitively (a
necessary condition for the trigger pattern to match anywhere). -/
def hasSometimes : List Char → Bool
  | [] => false
  | c :: rest =>
    (matchLit ['s', 'o', 'm', 'e', 't', 'i', 'm', 'e', 's'] (c :: rest)).isSome
      || hasSometimes rest

/-! ## Data model: Python dicts as association lists

A Python dict is an insertion-ordered mapping with unique keys: assignment to
an existing key updates it in place, assignment to a fresh key appends at the
end, and del removes the entry.  The ledger file thoughts.json holds a dict
from str(user_id) to a dict from phrase to count. -/

/-- A phrase key: the characters of a Python string. -/
abbrev Phrase := List Char

/-- One author's dict from phrase to count (JSON numbers are modelled as Int;
every value the program itself stores is positive). -/
abbrev ThoughtMap := List (Phrase × Int)

/-- The whole persisted dict, keyed by the author id (the str() image of the
numeric id is injective, so the key is modelled as the number itself). -/
abbrev Ledger := List (Nat × ThoughtMap)

/-- dict lookup: value at the first (unique) matching key. -/
def alookup {α β : Type} [DecidableEq α] (k : α) : List (α × β) → Option β
  | [] => none
  | (k', v) :: rest => if k' = k then some v else alookup k rest

/-- dict assignment d[k] = v: update in place if present, else append. -/
def aset {α β : Type} [DecidableEq α] (k : α) (v : β) : List (α × β) → List (α × β)
  | [] => [(k, v)]
  | (k', v') :: rest => if k' = k then (k', v) :: rest else (k', v') :: aset k v rest

/-- del d[k]: remove the (unique) entry with key k, if any. -/
def adel {α β : Type} [DecidableEq α] (k : α) : List (α × β) → List (α × β)
  | [] => []
  | (k', v') :: rest => if k' = k then rest else (k', v') :: adel k rest

/-- d.get(k, dflt). -/
def agetD {α β : Type} [DecidableEq α] (m : List (α × β)) (k : α) (d : β) : β :=
  (alookup k m).getD d

/-- Keys are pairwise distinct, as in every actual Python dict. -/
def NodupKeys {α β : Type} (m : List (α × β)) : Prop :=
  (m.map Prod.fst).Nodup

/-! ## Ledger operations from src/main.py -/

/-- ensure_user_data (lines 46-49): create the author's empty dict if absent. -/
def ensure_user_data (data : Ledger) (uid : Nat) : Ledger :=
  if (alookup uid data).isSome then data else aset uid [] data

/-- The increment idiom data[uid][thought] = data[uid].get(thought, 0) + 1
shared by on_message (line 313), add (line 410) and the scan loop (line 77),
restricted to the author's map. -/
def bumpThought (m : ThoughtMap) (t : Phrase) : ThoughtMap :=
  aset t (agetD m t 0 + 1) m

/-- RecordOccurrence as one engine step on the loaded ledger: ensure the
author's dict exists, then increment the phrase. -/
def recordOccurrence (data : Ledger) (uid : Nat) (t : Phrase) : Ledger :=
  let d := ensure_user_data data uid
  aset uid (bumpThought (agetD d uid []) t) d

/-- The remove branch of ThoughtSelectView.select_callback on the author's
dict (lines 229-233): if present, decrement; if the result is <= 0, delete. -/
def removeThoughtMap (m : ThoughtMap) (t : Phrase) : ThoughtMap :=
  match alookup t m with
  | none => m
  | some v =>
    let m1 := aset t (v - 1) m
    if v - 1 ≤ 0 then adel t m1 else m1

/-- select_callback, remove action, acting on a loaded ledger value (in the
source this value is the snapshot self.data taken at view construction):
user_data = data.get(uid, {}); decrement/delete; data[uid] = user_data
(lines 221-243). -/
def select_remove (data : Ledger) (uid : Nat) (t : Phrase) : Ledger :=
  aset uid (removeThoughtMap (agetD data uid []) t) data

/-- The rename/merge step of ReplaceThoughtModal.on_submit on the author's
dict (lines 275-278): if the old phrase is present, delete it and add its
count onto the (stripped) replacement's existing count. -/
def renameMergeMap (m : ThoughtMap) (old : Phrase) (nt : Phrase) : ThoughtMap :=
  match alookup old m with
  | none => m
  | some c =>
    let m1 := adel old m
    aset nt (agetD m1 nt 0 + c) m1

/-- ReplaceThoughtModal.on_submit (lines 270-281): loads the ledger afresh,
strips the submitted replacement, renames/merges, writes the author's dict
back and saves. -/
def on_submit_store (data : Ledger) (uid : Nat) (old : Phrase) (raw : Phrase) : Ledger :=
  aset uid (renameMergeMap (agetD data uid []) old (pystrip raw)) data

/-- The add command (lines 405-411): load, ensure the author, strip the
argument, increment, save.  There is no emptiness check after stripping. -/
def add_thought (data : Ledger) (uid : Nat) (thought : Phrase) : Ledger :=
  let d := ensure_user_data data uid
  aset uid (bumpThought (agetD d uid []) (pystrip thought)) d

/-- on_message (lines 300-316), the resulting store content: nothing happens
for bot authors or while a scan is active; otherwise, if findall produced any
captures, load, ensure the author, and increment each capture that is
non-empty after stripping, then save. -/
def on_message_store (scanning isBot : Bool) (data : Ledger) (uid : Nat)
    (text : List Char) : Ledger :=
  if scanning || isBot then data
  else if reFindall text = [] then data
  else
    (reFindall text).foldl
      (fun d mtch =>
        let thought := pystrip mtch
        if thought ≠ [] then aset uid (bumpThought (agetD d uid []) thought) d else d)
      (ensure_user_data data uid)

/-! ## Store-event traces

Load/save calls actually issued by a handler, in order.  on_message performs
one load and one save when findall matched (lines 308, 316) and none
otherwise; the scan performs exactly one load at its start (line 61) and one
save at its end (line 84), its channel loop containing no store call. -/

/-- A store interaction: load_data() or save_data(value). -/
inductive StoreEvent : Type
  | load (l : Ledger)
  | save (l : Ledger)
deriving DecidableEq

def isSaveEvent : StoreEvent → Bool
  | .save _ => true
  | _ => false

def isLoadEvent : StoreEvent → Bool
  | .load _ => true
  | _ => false

/-- Store events of on_message. -/
def on_message_events (scanning isBot : Bool) (data : Ledger) (uid : Nat)
    (text : List Char) : List StoreEvent :=
  if scanning || isBot then []
  else if reFindall text = [] then []
  else [StoreEvent.load data, StoreEvent.save (on_message_store scanning isBot data uid text)]

/-! ## The rescan (scan_existing_messages_for_user, lines 52-86) -/

/-- Processing one historical message inside the scan loop (lines 71-78):
skip messages by other authors; otherwise increment each capture that is
non-empty after stripping and count it. -/
def scanMsgFold (uid : Nat) (acc : ThoughtMap × Nat) (msg : Nat × List Char) :
    ThoughtMap × Nat :=
  if msg.1 ≠ uid then acc
  else
    (reFindall msg.2).foldl
      (fun acc mtch =>
        let thought := pystrip mtch
        if thought ≠ [] then (bumpThought acc.1 thought, acc.2 + 1) else acc)
      acc

/-- One channel of the corpus: its messages in history order. -/
def scanChannel (uid : Nat) (acc : ThoughtMap × Nat) (msgs : List (Nat × List Char)) :
    ThoughtMap × Nat :=
  msgs.foldl (scanMsgFold uid) acc

/-- The in-memory body of the scan: load, ensure the author, reset the
author's dict to {} (line 64), accumulate over every channel, save once.
Returns the saved ledger and total_matched. -/
def scan_result (store : Ledger) (uid : Nat) (channels : List (List (Nat × List Char))) :
    Ledger × Nat :=
  let d := aset uid ([] : ThoughtMap) (ensure_user_data store uid)
  let p := channels.foldl (scanChannel uid) (([] : ThoughtMap), 0)
  (aset uid p.1 d, p.2)

/-- Store events of one channel iteration: the loop body reads message history
and sleeps but performs no load_data/save_data call (lines 67-82). -/
def scan_channel_events (_msgs : List (Nat × List Char)) : List StoreEvent := []

/-- Store events of the whole scan: one load at entry (line 61), the channel
iterations, one save of the accumulated ledger at the end (line 84). -/
def scan_events (store : Ledger) (uid : Nat) (channels : List (List (Nat × List Char))) :
    List StoreEvent :=
  StoreEvent.load store ::
    ((channels.map scan_channel_events).flatten
      ++ [StoreEvent.save (scan_result store uid channels).1])

/-! ## Scan entry guard (lines 52-58 and 378-390) -/

/-- Outcome reported by a scan attempt. -/
inductive ScanOutcome : Type
  | alreadyInProgress
  | completed (total : Nat)
deriving DecidableEq

/-- scan_existing_messages_for_user including its entry guard and flag
lifecycle on the failure-free path: if is_scanning is already set, send the
rejection and return, touching neither the flag nor the store; otherwise set
the flag, run the scan body, save, and clear the flag.  Returns (final
is_scanning, final store, outcome). -/
def scan_existing (scanning : Bool) (store : Ledger) (uid : Nat)
    (channels : List (List (Nat × List Char))) : Bool × Ledger × ScanOutcome :=
  if scanning then (scanning, store, ScanOutcome.alreadyInProgress)
  else (false, (scan_result store uid channels).1,
        ScanOutcome.completed (scan_result store uid channels).2)

/-- The rescan command (lines 378-390): its own is_scanning pre-check, then
the scan function (which checks again). -/
def rescan_command (scanning : Bool) (store : Ledger) (uid : Nat)
    (channels : List (List (Nat × List Char))) : Bool × Ledger × ScanOutcome :=
  if scanning then (scanning, store, ScanOutcome.alreadyInProgress)
  else scan_existing scanning store uid channels

/-! ## Flag lifecycle under failures (claim C5)

scan_existing_messages_for_user has no try/finally around its body: only the
per-channel history loop is inside try/except (lines 69-82).  Each await/call
in the body is modelled as an action; an action either succeeds or raises.  A
raised exception inside the per-channel try is swallowed and the loop goes on;
a raised exception anywhere else propagates out of the function, skipping the
rest of the body -- including the line is_scanning = False. -/

/-- The calls of the scan body after is_scanning = True, in program order:
the status message (line 59), load_data (line 61), each channel's history
iteration (lines 70-80), save_data (line 84), is_scanning = False (line 85),
the completion message (line 86). -/
inductive ScanAction : Type
  | sendStatus
  | loadStore
  | readChannel (idx : Nat)
  | saveStore
  | clearFlag
  | sendDone
deriving DecidableEq

/-- Whether an exception raised by this action is caught by the per-channel
try/except (lines 69, 81-82). -/
def caughtAction : ScanAction → Bool
  | .readChannel _ => true
  | _ => false

/-- The body of a started scan over n channels. -/
def scanProgram (n : Nat) : List ScanAction :=
  ScanAction.sendStatus :: ScanAction.loadStore ::
    ((List.range n).map ScanAction.readChannel
      ++ [ScanAction.saveStore, ScanAction.clearFlag, ScanAction.sendDone])

/-- The effect of an action on the is_scanning flag: only the statement
is_scanning = False at line 85 changes it. -/
def applyFlag : ScanAction → Bool → Bool
  | ScanAction.clearFlag, _ => false
  | _, flag => flag

/-- Run the body on the is_scanning flag: fails says which actions raise.  A
caught failure continues with the next action; an uncaught failure ends the
execution with the flag as it stands. -/
def runScanActions (fails : ScanAction → Bool) : Bool → List ScanAction → Bool
  | flag, [] => flag
  | flag, a :: rest =>
    if fails a then
      if caughtAction a then runScanActions fails flag rest
      else flag
    else runScanActions fails (applyFlag a flag) rest

/-- Final value of is_scanning after an execution of a started scan (the flag
was just set at line 58) over n channels, with failures as given. -/
def scanFlagAfter (n : Nat) (fails : ScanAction → Bool) : Bool :=
  runScanActions fails true (scanProgram n)

/-! ## Interactive mutation flows (claim C3)

ThoughtSelectView.__init__ runs self.data = load_data() when the view is
constructed (line 185); the remove branch of select_callback then mutates and
saves that snapshot (lines 226-243), however the store may have changed while
the view was waiting for the user.  ReplaceThoughtModal.on_submit instead runs
data = load_data() at submission time (line 271).  mid is the aggregate effect
of whatever operations ran against the store during the wait. -/

/-- The store content saved by the remove flow: view construction snapshots
storeAtInit; the selection callback mutates and saves the snapshot, ignoring
the store state mid storeAtInit current at selection time. -/
def removeInteraction (storeAtInit : Ledger) (_mid : Ledger → Ledger) (uid : Nat)
    (t : Phrase) : Ledger :=
  select_remove storeAtInit uid t

/-- Modelled from the spec: the read-modify-write discipline the spec claims
for every mutation -- reload the ledger immediately before mutating (hence
from the store as left by the intervening operations) and save that. -/
def removeInteractionRMWSpec (storeAtInit : Ledger) (mid : Ledger → Ledger) (uid : Nat)
    (t : Phrase) : Ledger :=
  select_remove (mid storeAtInit) uid t

/-- The store content saved by the rename flow: on_submit loads the ledger
afresh at submission time, so it operates on mid storeAtInit. -/
def renameInteraction (storeAtInit : Ledger) (mid : Ledger → Ledger) (uid : Nat)
    (old raw : Phrase) : Ledger :=
  on_submit_store (mid storeAtInit) uid old raw

/-! ## load_data and the persisted file (claim C9)

load_data (lines 30-37) returns {} if the file does not exist; it opens the
file as UTF-8 text and runs json.load, catching only json.JSONDecodeError.  A
file whose bytes do not decode as UTF-8 makes the read raise
UnicodeDecodeError, which no except clause catches; a decodable file that is
not valid JSON raises json.JSONDecodeError and yields {}; a valid JSON
document is returned as parsed, whatever its shape. -/

/-- The parsed shape of a JSON document: the dict-of-dicts ledger shape, or
any other JSON value (array, string, number, ...), which json.load returns
just as happily. -/
inductive JsonValue : Type
  | dict (entries : Ledger)
  | nonDict
deriving DecidableEq

/-- A present file, classified by how reading and parsing it behaves. -/
inductive JsonDoc : Type
  | undecodable
  | unparsable
  | value (v : JsonValue)
deriving DecidableEq

/-- The state of thoughts.json on disk. -/
inductive FileState : Type
  | absent
  | present (d : JsonDoc)
deriving DecidableEq

/-- What a call to load_data returns to its caller, or the exception that
escapes it. -/
inductive LoadResult : Type
  | ok (v : JsonValue)
  | unicodeDecodeError
deriving DecidableEq

/-- load_data (lines 30-37). -/
def load_data : FileState → LoadResult
  | FileState.absent => LoadResult.ok (JsonValue.dict [])
  | FileState.present JsonDoc.undecodable => LoadResult.unicodeDecodeError
  | FileState.present JsonDoc.unparsable => LoadResult.ok (JsonValue.dict [])
  | FileState.present (JsonDoc.value v) => LoadResult.ok v

/-! ## Reachable ledgers (claim C2) -/

/-- Every phrase key stored anywhere in the ledger is non-empty after
stripping. -/
def keysTrimmedNonempty (L : Ledger) : Prop :=
  ∀ e ∈ L, ∀ q ∈ e.2, pystrip q.1 ≠ []

/-- Ledgers reachable from the empty ledger by the public operations exactly
as the source implements them: live ingestion of any message, the add command
with any argument string, a remove selection, a rename submission with any
replacement text, and a full rescan over any corpus. -/
inductive Reachable : Ledger → Prop
  | empty : Reachable []
  | live (L : Ledger) (uid : Nat) (text : List Char) :
      Reachable L → Reachable (on_message_store false false L uid text)
  | add (L : Ledger) (uid : Nat) (raw : Phrase) :
      Reachable L → Reachable (add_thought L uid raw)
  | remove (L : Ledger) (uid : Nat) (t : Phrase) :
      Reachable L → Reachable (select_remove L uid t)
  | rename (L : Ledger) (uid : Nat) (old raw : Phrase) :
      Reachable L → Reachable (on_submit_store L uid old raw)
  | rescan (L : Ledger) (uid : Nat) (channels : List (List (Nat × List Char))) :
      Reachable L → Reachable ((scan_result L uid channels).1)

/-- The same reachable set, but with the two text-entry operations restricted
to arguments that are non-empty after stripping (the amended claim C2). -/
inductive ReachableChecked : Ledger → Prop
  | empty : ReachableChecked []
  | live (L : Ledger) (uid : Nat) (text : List Char) :
      ReachableChecked L → ReachableChecked (on_message_store false false L uid text)
  | add (L : Ledger) (uid : Nat) (raw : Phrase) :
      pystrip raw ≠ [] →
      ReachableChecked L → ReachableChecked (add_thought L uid raw)
  | remove (L : Ledger) (uid : Nat) (t : Phrase) :
      ReachableChecked L → ReachableChecked (select_remove L uid t)
  | rename (L : Ledger) (uid : Nat) (old raw : Phrase) :
      pystrip raw ≠ [] →
      ReachableChecked L → ReachableChecked (on_submit_store L uid old raw)
  | rescan (L : Ledger) (uid : Nat) (channels : List (List (Nat × List Char))) :
      ReachableChecked L → ReachableChecked ((scan_result L uid channels).1)

/-- Every phrase key of one author's dict is non-empty after stripping. -/
def mapKeysOK (m : ThoughtMap) : Prop :=
  ∀ q ∈ m, pystrip q.1 ≠ []

/-- Concrete phrases and messages used in witnesses and counterexamples. -/
def phCats : Phrase := "cats".toList

def phDogs : Phrase := "dogs".toList

def msgTwoThoughts : List Char :=
  "sometimes i think about cats. sometimes i think about dogs.".toList

def exampleMsg : List Char :=
  "sometimes I think a lot about pineapple pizza. anyway".toList

/-! # Lemmas about dict operations -/

theorem alookup_aset_self {α β : Type} [DecidableEq α] (k : α) (v : β) :
    ∀ m : List (α × β), alookup k (aset k v m) = some v := by
  intro m
  induction m with
  | nil => simp [aset, alookup]
  | cons hd tl ih =>
    obtain ⟨k', v'⟩ := hd
    by_cases h : k' = k
    · simp [aset, alookup, h]
    · simp [aset, alookup, h, ih]

theorem alookup_aset_ne {α β : Type} [DecidableEq α] {k k' : α} (v : β) (h : k ≠ k') :
    ∀ m : List (α × β), alookup k (aset k' v m) = alookup k m := by
  have hne : ¬ k' = k := fun he => h he.symm
  intro m
  induction m with
  | nil => simp [aset, alookup, hne]
  | cons hd tl ih =>
    obtain ⟨a, b⟩ := hd
    by_cases ha : a = k'
    · subst ha
      have hak : ¬ a = k := fun he => h he.symm
      simp [aset, alookup, hak]
    · simp [aset, alookup, ha, ih]

theorem alookup_adel_ne {α β : Type} [DecidableEq α] {k k' : α} (h : k ≠ k') :
    ∀ m : List (α × β), alookup k (adel k' m) = alookup k m := by
  intro m
  induction m with
  | nil => simp [adel]
  | cons hd tl ih =>
    obtain ⟨a, b⟩ := hd
    by_cases ha : a = k'
    · subst ha
      have hak : ¬ a = k := fun he => h he.symm
      simp [adel, alookup, hak]
    · simp [adel, alookup, ha, ih]

theorem alookup_mem {α β : Type} [DecidableEq α] {k : α} {v : β} :
    ∀ {m : List (α × β)}, alookup k m = some v → (k, v) ∈ m := by
  intro m
  induction m with
  | nil => intro h; simp [alookup] at h
  | cons hd tl ih =>
    obtain ⟨a, b⟩ := hd
    intro h
    by_cases ha : a = k
    · subst ha
      simp [alookup] at h
      simp [h]
    · simp [alookup, ha] at h
      exact List.mem_cons_of_mem _ (ih h)

theorem mem_aset {α β : Type} [DecidableEq α] {k : α} {v : β} {q : α × β} :
    ∀ {m : List (α × β)}, q ∈ aset k v m → q = (k, v) ∨ q ∈ m := by
  intro m
  induction m with
  | nil => intro h; simp [aset] at h; exact Or.inl h
  | cons hd tl ih =>
    obtain ⟨a, b⟩ := hd
    intro h
    by_cases ha : a = k
    · subst ha
      simp [aset] at h
      rcases h with h | h
      · exact Or.inl (by simp [h])
      · exact Or.inr (List.mem_cons_of_mem _ h)
    · simp [aset, ha] at h
      rcases h with h | h
      · exact Or.inr (by simp [h])
      · rcases ih h with h' | h'
        · exact Or.inl h'
        · exact Or.inr (List.mem_cons_of_mem _ h')

theorem mem_adel {α β : Type} [DecidableEq α] {k : α} {q : α × β} :
    ∀ {m : List (α × β)}, q ∈ adel k m → q ∈ m := by
  intro m
  induction m with
  | nil => intro h; simp [adel] at h
  | cons hd tl ih =>
    obtain ⟨a, b⟩ := hd
    intro h
    by_cases ha : a = k
    · subst ha
      simp [adel] at h
      exact List.mem_cons_of_mem _ h
    · simp [adel, ha] at h
      rcases h with h | h
      · simp [h]
      · exact List.mem_cons_of_mem _ (ih h)

theorem keys_mem_aset {α β : Type} [DecidableEq α] {k a : α} {v : β} :
    ∀ {m : List (α × β)}, a ∈ (aset k v m).map Prod.fst → a = k ∨ a ∈ m.map Prod.fst := by
  intro m h
  rcases List.mem_map.1 h with ⟨q, hq, rfl⟩
  rcases mem_aset hq with h' | h'
  · exact Or.inl (by simp [h'])
  · exact Or.inr (List.mem_map_of_mem _ h')

theorem nodupKeys_aset {α β : Type} [DecidableEq α] {k : α} {v : β} :
    ∀ {m : List (α × β)}, NodupKeys m → NodupKeys (aset k v m) := by
  intro m
  induction m with
  | nil => intro _; simp [aset, NodupKeys]
  | cons hd tl ih =>
    obtain ⟨a, b⟩ := hd
    intro h
    rw [NodupKeys, List.map_cons, List.nodup_cons] at h
    obtain ⟨hnot, htl⟩ := h
    by_cases ha : a = k
    · subst ha
      rw [NodupKeys]
      simp [aset, List.nodup_cons]
      exact ⟨by simpa [NodupKeys] using hnot, by simpa [NodupKeys] using htl⟩
    · have ihtl := ih htl
      rw [NodupKeys]
      simp only [aset, if_neg ha, List.map_cons, List.nodup_cons]
      refine ⟨fun hmem => ?_, ihtl⟩
      rcases keys_mem_aset hmem with h' | h'
      · exact ha h'
      · exact hnot h'

theorem alookup_eq_none_of_not_mem {α β : Type} [DecidableEq α] {k : α} :
    ∀ {m : List (α × β)}, k ∉ m.map Prod.fst → alookup k m = none := by
  intro m
  induction m with
  | nil => intro _; rfl
  | cons hd tl ih =>
    obtain ⟨a, b⟩ := hd
    intro h
    simp only [List.map_cons, List.mem_cons] at h
    push_neg at h
    have hak : ¬ a = k := fun he => h.1 he.symm
    simp [alookup, hak, ih h.2]

theorem alookup_adel_self {α β : Type} [DecidableEq α] {k : α} :
    ∀ {m : List (α × β)}, NodupKeys m → alookup k (adel k m) = none := by
  intro m
  induction m with
  | nil => intro _; rfl
  | cons hd tl ih =>
    obtain ⟨a, b⟩ := hd
    intro h
    rw [NodupKeys, List.map_cons, List.nodup_cons] at h
    obtain ⟨hnot, htl⟩ := h
    by_cases ha : a = k
    · subst ha
      simp only [adel, if_pos rfl]
      exact alookup_eq_none_of_not_mem hnot
    · simp [adel, ha, alookup, ih htl]

theorem aset_absent_append {α β : Type} [DecidableEq α] {k : α} (v : β) :
    ∀ {m : List (α × β)}, alookup k m = none → aset k v m = m ++ [(k, v)] := by
  intro m
  induction m with
  | nil => intro _; rfl
  | cons hd tl ih =>
    obtain ⟨a, b⟩ := hd
    intro h
    by_cases ha : a = k
    · simp [alookup, ha] at h
    · simp [alookup, ha] at h
      simp [aset, ha, ih h]

theorem alookup_append_self {α β : Type} [DecidableEq α] {k : α} (v : β) :
    ∀ {m : List (α × β)}, alookup k m = none → alookup k (m ++ [(k, v)]) = some v := by
  intro m
  induction m with
  | nil => intro _; simp [alookup]
  | cons hd tl ih =>
    obtain ⟨a, b⟩ := hd
    intro h
    by_cases ha : a = k
    · simp [alookup, ha] at h
    · simp [alookup, ha] at h
      simp [alookup, ha, ih h]

theorem aset_append_self {α β : Type} [DecidableEq α] {k : α} (v w : β) :
    ∀ {m : List (α × β)}, alookup k m = none →
      aset k v (m ++ [(k, w)]) = m ++ [(k, v)] := by
  intro m
  induction m with
  | nil => intro _; simp [aset]
  | cons hd tl ih =>
    obtain ⟨a, b⟩ := hd
    intro h
    by_cases ha : a = k
    · simp [alookup, ha] at h
    · simp [alookup, ha] at h
      simp [aset, ha, ih h]

theorem adel_append_self {α β : Type} [DecidableEq α] {k : α} (w : β) :
    ∀ {m : List (α × β)}, alookup k m = none →
      adel k (m ++ [(k, w)]) = m := by
  intro m
  induction m with
  | nil => intro _; simp [adel]
  | cons hd tl ih =>
    obtain ⟨a, b⟩ := hd
    intro h
    by_cases ha : a = k
    · simp [alookup, ha] at h
    · simp [alookup, ha] at h
      simp [adel, ha, ih h]

/-! # Lemmas about pystrip -/

theorem mem_dropWhile_of_not {p : Char → Bool} {a : Char} :
    ∀ {l : List Char}, a ∈ l → p a = false → a ∈ l.dropWhile p := by
  intro l
  induction l with
  | nil => intro h _; simp at h
  | cons c rest ih =>
    intro h hpa
    by_cases hc : p c
    · rw [List.dropWhile_cons_of_pos hc]
      rcases List.mem_cons.1 h with rfl | h'
      · rw [hc] at hpa; cases hpa
      · exact ih h' hpa
    · rw [List.dropWhile_cons_of_neg hc]
      exact h

theorem mem_pystrip_of_not {a : Char} {s : List Char} (h : a ∈ s)
    (hpa : isSpaceChar a = false) : a ∈ pystrip s := by
  rw [pystrip, List.mem_reverse]
  exact mem_dropWhile_of_not (List.mem_reverse.2 (mem_dropWhile_of_not h hpa)) hpa

theorem forall_space_of_pystrip_nil {s : List Char} (h : pystrip s = []) :
    ∀ a ∈ s, isSpaceChar a = true := by
  intro a ha
  by_cases hpa : isSpaceChar a
  · exact hpa
  · have := mem_pystrip_of_not ha (by simpa using hpa)
    rw [h] at this
    simp at this

theorem dropWhile_head_not {p : Char → Bool} {a : Char} {t : List Char} :
    ∀ {l : List Char}, l.dropWhile p = a :: t → p a = false := by
  intro l
  induction l with
  | nil => intro h; simp at h
  | cons c rest ih =>
    intro h
    by_cases hc : p c
    · rw [List.dropWhile_cons_of_pos hc] at h
      exact ih h
    · rw [List.dropWhile_cons_of_neg hc] at h
      cases h
      simpa using hc

/-- Stripping an already-stripped non-empty string cannot make it empty: the
last character of pystrip s is not whitespace, so it survives a second
strip. -/
theorem pystrip_pystrip_ne_nil {s : List Char} (h : pystrip s ≠ []) :
    pystrip (pystrip s) ≠ [] := by
  intro hcontra
  rcases hd : (s.dropWhile isSpaceChar).reverse.dropWhile isSpaceChar with _ | ⟨a, t⟩
  · exact h (by rw [pystrip, hd]; rfl)
  · have hmem : a ∈ pystrip s := by
      rw [pystrip, hd, List.mem_reverse]
      simp
    have hna : isSpaceChar a = false := dropWhile_head_not hd
    have := forall_space_of_pystrip_nil hcontra a hmem
    rw [hna] at this
    cases this

/-! # Preservation of the key invariant (claim C2) -/

theorem foldl_preserves {α β : Type} {P : α → Prop} {f : α → β → α}
    (h : ∀ a b, P a → P (f a b)) :
    ∀ (l : List β) (a : α), P a → P (l.foldl f a) := by
  intro l
  induction l with
  | nil => intro a ha; exact ha
  | cons b rest ih => intro a ha; exact ih _ (h a b ha)

theorem mapKeysOK_of_keys {L : Ledger} (h : keysTrimmedNonempty L) (uid : Nat) :
    mapKeysOK (agetD L uid []) := by
  rw [agetD]
  cases hl : alookup uid L with
  | none => intro q hq; simp at hq
  | some m =>
    intro q hq
    exact h (uid, m) (alookup_mem hl) q hq

theorem keys_aset_map {L : Ledger} {uid : Nat} {m : ThoughtMap}
    (hL : keysTrimmedNonempty L) (hm : mapKeysOK m) :
    keysTrimmedNonempty (aset uid m L) := by
  intro e he
  rcases mem_aset he with rfl | he'
  · exact hm
  · exact hL e he'

theorem keys_ensure {L : Ledger} (h : keysTrimmedNonempty L) (uid : Nat) :
    keysTrimmedNonempty (ensure_user_data L uid) := by
  rw [ensure_user_data]
  by_cases hc : (alookup uid L).isSome
  · simpa [hc] using h
  · simp only [hc, if_false, Bool.false_eq_true]
    exact keys_aset_map h (fun q hq => by simp at hq)

theorem mapKeysOK_bump {m : ThoughtMap} {t : Phrase} (hm : mapKeysOK m)
    (ht : pystrip t ≠ []) : mapKeysOK (bumpThought m t) := by
  intro q hq
  rcases mem_aset hq with rfl | hq'
  · exact ht
  · exact hm q hq'

theorem mapKeysOK_remove {m : ThoughtMap} (t : Phrase) (hm : mapKeysOK m) :
    mapKeysOK (removeThoughtMap m t) := by
  rw [removeThoughtMap]
  cases hl : alookup t m with
  | none => exact hm
  | some v =>
    have htk : pystrip t ≠ [] := hm (t, v) (alookup_mem hl)
    have hset : mapKeysOK (aset t (v - 1) m) := by
      intro q hq
      rcases mem_aset hq with rfl | hq'
      · exact htk
      · exact hm q hq'
    by_cases hc : v - 1 ≤ 0
    · simp only [hc, if_true]
      exact fun q hq => hset q (mem_adel hq)
    · simpa [hc] using hset

theorem mapKeysOK_rename {m : ThoughtMap} {nt : Phrase} (old : Phrase)
    (hm : mapKeysOK m) (hnt : pystrip nt ≠ []) :
    mapKeysOK (renameMergeMap m old nt) := by
  rw [renameMergeMap]
  cases hl : alookup old m with
  | none => exact hm
  | some c =>
    intro q hq
    rcases mem_aset hq with rfl | hq'
    · exact hnt
    · exact hm q (mem_adel hq')

theorem keys_on_message {L : Ledger} (uid : Nat) (text : List Char)
    (h : keysTrimmedNonempty L) :
    keysTrimmedNonempty (on_message_store false false L uid text) := by
  rw [on_message_store]
  simp only [Bool.or_self, if_false, Bool.false_eq_true]
  by_cases hm : reFindall text = []
  · simpa [hm] using h
  · simp only [hm, if_false]
    refine foldl_preserves ?_ _ _ (keys_ensure h uid)
    intro d mtch hd
    dsimp only
    by_cases hne : pystrip mtch = []
    · rw [if_neg (not_not_intro hne)]
      exact hd
    · rw [if_pos hne]
      exact keys_aset_map hd (mapKeysOK_bump (mapKeysOK_of_keys hd uid)
        (pystrip_pystrip_ne_nil hne))

theorem keys_add_thought {L : Ledger} (uid : Nat) {raw : Phrase}
    (hraw : pystrip raw ≠ []) (h : keysTrimmedNonempty L) :
    keysTrimmedNonempty (add_thought L uid raw) := by
  rw [add_thought]
  exact keys_aset_map (keys_ensure h uid)
    (mapKeysOK_bump (mapKeysOK_of_keys (keys_ensure h uid) uid)
      (pystrip_pystrip_ne_nil hraw))

theorem keys_select_remove {L : Ledger} (uid : Nat) (t : Phrase)
    (h : keysTrimmedNonempty L) :
    keysTrimmedNonempty (select_remove L uid t) := by
  rw [select_remove]
  exact keys_aset_map h (mapKeysOK_remove t (mapKeysOK_of_keys h uid))

theorem keys_on_submit {L : Ledger} (uid : Nat) (old : Phrase) {raw : Phrase}
    (hraw : pystrip raw ≠ []) (h : keysTrimmedNonempty L) :
    keysTrimmedNonempty (on_submit_store L uid old raw) := by
  rw [on_submit_store]
  exact keys_aset_map h
    (mapKeysOK_rename old (mapKeysOK_of_keys h uid) (pystrip_pystrip_ne_nil hraw))

theorem mapKeysOK_scan_fold {uid : Nat} :
    ∀ (channels : List (List (Nat × List Char))) (acc : ThoughtMap × Nat),
      mapKeysOK acc.1 → mapKeysOK (channels.foldl (scanChannel uid) acc).1 := by
  refine fun channels => foldl_preserves (P := fun (a : ThoughtMap × Nat) => mapKeysOK a.1) ?_ channels
  intro acc msgs hacc
  rw [scanChannel]
  refine foldl_preserves (P := fun (a : ThoughtMap × Nat) => mapKeysOK a.1) ?_ msgs acc hacc
  intro a msg ha
  rw [scanMsgFold]
  by_cases hauth : msg.1 = uid
  · rw [if_neg (not_not_intro hauth)]
    refine foldl_preserves (P := fun (a : ThoughtMap × Nat) => mapKeysOK a.1) ?_ _ _ ha
    intro a' mtch ha'
    dsimp only
    by_cases hne : pystrip mtch = []
    · rw [if_neg (not_not_intro hne)]
      exact ha'
    · rw [if_pos hne]
      exact mapKeysOK_bump ha' (pystrip_pystrip_ne_nil hne)
  · rw [if_pos hauth]
    exact ha

theorem keys_scan_result {L : Ledger} (uid : Nat)
    (channels : List (List (Nat × List Char))) (h : keysTrimmedNonempty L) :
    keysTrimmedNonempty (scan_result L uid channels).1 := by
  rw [scan_result]
  refine keys_aset_map ?_ (mapKeysOK_scan_fold channels _ ?_)
  · exact keys_aset_map (keys_ensure h uid) (fun q hq => by simp at hq)
  · intro q hq; simp at hq

/-! # The extractor finds nothing without the trigger word (claim C1) -/

theorem findallAux_eq_nil :
    ∀ (fuel : Nat) (prev : Bool) (s : List Char),
      hasSometimes s = false → findallAux fuel prev s = [] := by
  intro fuel
  induction fuel with
  | zero => intro prev s _; rfl
  | succ n ih =>
    intro prev s h
    cases s with
    | nil => rfl
    | cons c rest =>
      rw [hasSometimes, Bool.or_eq_false_iff] at h
      obtain ⟨h1, h2⟩ := h
      cases prev with
      | true =>
        simp only [findallAux, if_true]
        exact ih _ _ h2
      | false =>
        cases hm : matchLit ['s', 'o', 'm', 'e', 't', 'i', 'm', 'e', 's'] (c :: rest) with
        | some s1 => rw [hm] at h1; simp at h1
        | none =>
          have htrig : matchTrigger (c :: rest) = none := by
            rw [matchTrigger, hm]
          simp only [findallAux, if_false, Bool.false_eq_true, htrig]
          exact ih _ _ h2

theorem extractThoughts_eq_nil {s : List Char} (h : hasSometimes s = false) :
    extractThoughts s = [] := by
  rw [extractThoughts, reFindall, findallAux_eq_nil _ _ _ h]
  rfl

/-! # Engine steps seen through the author's dict (claims C6, C7) -/

theorem agetD_ensure_self (L : Ledger) (uid : Nat) :
    agetD (ensure_user_data L uid) uid [] = agetD L uid [] := by
  rw [ensure_user_data]
  by_cases hc : (alookup uid L).isSome
  · rw [if_pos hc]
  · rw [if_neg hc, agetD, agetD, alookup_aset_self]
    cases hl : alookup uid L with
    | none => rfl
    | some m => rw [hl] at hc; simp at hc

theorem agetD_record_self (L : Ledger) (uid : Nat) (t : Phrase) :
    agetD (recordOccurrence L uid t) uid [] = bumpThought (agetD L uid []) t := by
  rw [recordOccurrence]
  rw [agetD, alookup_aset_self, Option.getD_some, agetD_ensure_self]

theorem agetD_select_remove_self (L : Ledger) (uid : Nat) (t : Phrase) :
    agetD (select_remove L uid t) uid [] = removeThoughtMap (agetD L uid []) t := by
  rw [select_remove, agetD, alookup_aset_self, Option.getD_some]

theorem agetD_on_submit_self (L : Ledger) (uid : Nat) (old raw : Phrase) :
    agetD (on_submit_store L uid old raw) uid []
      = renameMergeMap (agetD L uid []) old (pystrip raw) := by
  rw [on_submit_store, agetD, alookup_aset_self, Option.getD_some]

theorem agetD_iter_record (uid : Nat) (t : Phrase) :
    ∀ (n : Nat) (L : Ledger),
      agetD ((fun L => recordOccurrence L uid t)^[n] L) uid []
        = (fun m => bumpThought m t)^[n] (agetD L uid []) := by
  intro n
  induction n with
  | zero => intro L; rfl
  | succ k ih =>
    intro L
    rw [Function.iterate_succ_apply, Function.iterate_succ_apply, ih,
      agetD_record_self]

theorem agetD_iter_remove (uid : Nat) (t : Phrase) :
    ∀ (n : Nat) (L : Ledger),
      agetD ((fun L => select_remove L uid t)^[n] L) uid []
        = (fun m => removeThoughtMap m t)^[n] (agetD L uid []) := by
  intro n
  induction n with
  | zero => intro L; rfl
  | succ k ih =>
    intro L
    rw [Function.iterate_succ_apply, Function.iterate_succ_apply, ih,
      agetD_select_remove_self]

theorem bump_iter_absent {t : Phrase} :
    ∀ (n : Nat) {m : ThoughtMap}, alookup t m = none →
      (fun m => bumpThought m t)^[n + 1] m = m ++ [(t, (n : Int) + 1)] := by
  intro n
  induction n with
  | zero =>
    intro m h
    rw [Function.iterate_one]
    rw [bumpThought, agetD, h, Option.getD_none, aset_absent_append _ h]
    norm_num
  | succ k ih =>
    intro m h
    rw [Function.iterate_succ_apply']
    rw [ih h]
    rw [bumpThought, agetD, alookup_append_self _ h, Option.getD_some,
      aset_append_self _ _ h]
    push_cast
    ring_nf

theorem removeThoughtMap_present {m : ThoughtMap} {t : Phrase} {v : Int}
    (h : alookup t m = some v) :
    removeThoughtMap m t
      = if v - 1 ≤ 0 then adel t (aset t (v - 1) m) else aset t (v - 1) m := by
  rw [removeThoughtMap, h]

theorem removeThoughtMap_absent {m : ThoughtMap} {t : Phrase}
    (h : alookup t m = none) : removeThoughtMap m t = m := by
  rw [removeThoughtMap, h]

theorem renameMergeMap_present {m : ThoughtMap} {old nt : Phrase} {c : Int}
    (h : alookup old m = some c) :
    renameMergeMap m old nt = aset nt (agetD (adel old m) nt 0 + c) (adel old m) := by
  rw [renameMergeMap, h]

theorem renameMergeMap_absent {m : ThoughtMap} {old nt : Phrase}
    (h : alookup old m = none) : renameMergeMap m old nt = m := by
  rw [renameMergeMap, h]

theorem remove_iter_absent {t : Phrase} :
    ∀ (n : Nat) {m : ThoughtMap}, alookup t m = none →
      (fun m => removeThoughtMap m t)^[n + 1] (m ++ [(t, (n : Int) + 1)]) = m := by
  intro n
  induction n with
  | zero =>
    intro m h
    rw [Function.iterate_one]
    rw [removeThoughtMap_present (alookup_append_self _ h)]
    norm_num
    rw [aset_append_self _ _ h, adel_append_self _ h]
  | succ k ih =>
    intro m h
    rw [Function.iterate_succ_apply]
    have hstep : removeThoughtMap (m ++ [(t, ((k : Int) + 1) + 1)]) t
        = m ++ [(t, (k : Int) + 1)] := by
      rw [removeThoughtMap_present (alookup_append_self _ h)]
      rw [if_neg (by omega : ¬ (k : Int) + 1 + 1 - 1 ≤ 0),
        aset_append_self _ _ h]
      norm_num
    have hcast : ((k + 1 : Nat) : Int) + 1 = ((k : Int) + 1) + 1 := by push_cast; ring
    rw [hcast, hstep, ih h]

/-! # Lemmas about the failure model of the scan body (claim C5) -/

theorem runScanActions_false (fails : ScanAction → Bool) :
    ∀ l : List ScanAction, runScanActions fails false l = false := by
  intro l
  induction l with
  | nil => rfl
  | cons a rest ih =>
    rw [runScanActions]
    by_cases hf : fails a = true
    · rw [if_pos hf]
      by_cases hc : caughtAction a = true
      · rw [if_pos hc]; exact ih
      · rw [if_neg hc]
    · rw [if_neg hf]
      have happ : applyFlag a false = false := by cases a <;> rfl
      rw [happ]
      exact ih

theorem runScanActions_step_ok {fails : ScanAction → Bool} {a : ScanAction}
    (ha : fails a = false) (flag : Bool) (l : List ScanAction) :
    runScanActions fails flag (a :: l) = runScanActions fails (applyFlag a flag) l := by
  rw [runScanActions, if_neg (by simp [ha])]

theorem runScanActions_readChannels (fails : ScanAction → Bool) :
    ∀ (idxs : List Nat) (flag : Bool) (l2 : List ScanAction),
      runScanActions fails flag (idxs.map ScanAction.readChannel ++ l2)
        = runScanActions fails flag l2 := by
  intro idxs
  induction idxs with
  | nil => intro flag l2; rfl
  | cons i rest ih =>
    intro flag l2
    rw [List.map_cons, List.cons_append, runScanActions]
    have hc : caughtAction (ScanAction.readChannel i) = true := rfl
    by_cases hf : fails (ScanAction.readChannel i) = true
    · rw [if_pos hf, if_pos hc]
      exact ih flag l2
    · rw [if_neg hf]
      exact ih flag l2

/-! # Lemma for the scan event trace (claim C4) -/

theorem scan_events_shape (store : Ledger) (uid : Nat)
    (channels : List (List (Nat × List Char))) :
    scan_events store uid channels
      = [StoreEvent.load store, StoreEvent.save (scan_result store uid channels).1] := by
  rw [scan_events]
  have hflat : (channels.map scan_channel_events).flatten = ([] : List StoreEvent) := by
    induction channels with
    | nil => rfl
    | cons c rest ih =>
      rw [List.map_cons, List.flatten_cons, scan_channel_events, List.nil_append]
      exact ih
  rw [hflat]
  rfl

/-! # Claim theorems -/

/-- C1.  The Phrase Extractor is the global case-insensitive non-greedy search
for "sometimes i think (a lot)? about", each capture running to the first '.',
newline or end of input, trimmed, empty-after-trim captures dropped: on the
spec's example it returns exactly ["pineapple pizza"], and a text without the
trigger word yields the empty sequence. -/
theorem c1_phrase_extractor :
    extractThoughts exampleMsg = ["pineapple pizza".toList]
  ∧ ∀ s : List Char, hasSometimes s = false → extractThoughts s = [] :=
  ⟨by decide, fun _ h => extractThoughts_eq_nil h⟩

theorem c1_phrase_extractor_witness :
    hasSometimes "nothing to see here.".toList = false
  ∧ extractThoughts "nothing to see here.".toList = [] :=
  ⟨by decide, c1_phrase_extractor.2 "nothing to see here.".toList (by decide)⟩

/-- C2, counterexample.  The claim that every ledger reachable by the public
operations (with any argument strings) has only keys that are non-empty after
trimming is false: the add command with the whitespace-only argument " "
strips it to "" and stores it as a key without any emptiness check
(src/main.py lines 405-410). -/
theorem c2_key_invariant_cex :
    ¬ (∀ L : Ledger, Reachable L → keysTrimmedNonempty L) := by
  intro h
  have h2 := h (add_thought [] 1 [' ']) (Reachable.add [] 1 [' '] Reachable.empty)
  exact h2 (1, [([], 1)]) (by decide) ([], 1) (by decide) rfl

/-- C2, amended.  If the add command's argument and the rename replacement
text are non-empty after trimming, then every reachable ledger has only phrase
keys that are non-empty after trimming; live ingestion, removal and rescans
need no side condition. -/
theorem c2_key_invariant_amended :
    ∀ L : Ledger, ReachableChecked L → keysTrimmedNonempty L := by
  intro L h
  induction h with
  | empty => intro e he; simp at he
  | live L uid text _ ih => exact keys_on_message uid text ih
  | add L uid raw hraw _ ih => exact keys_add_thought uid hraw ih
  | remove L uid t _ ih => exact keys_select_remove uid t ih
  | rename L uid old raw hraw _ ih => exact keys_on_submit uid old hraw ih
  | rescan L uid channels _ ih => exact keys_scan_result uid channels ih

theorem c2_key_invariant_amended_witness :
    keysTrimmedNonempty (add_thought [] 1 phCats) :=
  c2_key_invariant_amended _
    (ReachableChecked.add [] 1 phCats (by decide) ReachableChecked.empty)

/-- C3, counterexample.  The remove flow is not a read-modify-write unit: it
saves a mutation of the snapshot taken at view construction, so with an add
for another user intervening during the interactive wait, the saved ledger
differs from reload-mutate-save of the current store (the intervening entry is
lost). -/
theorem c3_rmw_cex :
    removeInteraction [(1, [(phCats, 2)])] (fun L => add_thought L 2 phDogs) 1 phCats
      ≠ removeInteractionRMWSpec [(1, [(phCats, 2)])]
          (fun L => add_thought L 2 phDogs) 1 phCats := by
  decide

/-- C3, amended.  RenameAndMerge reloads the Ledger at submission time and so
acts on the store as left by intervening operations, but RemoveOneOccurrence
mutates and saves the copy loaded at view construction: an entry added by an
intervening operation for another author is absent from what remove saves,
while the read-modify-write discipline would have preserved it. -/
theorem c3_rmw_amended :
    (∀ (store : Ledger) (mid : Ledger → Ledger) (uid : Nat) (old raw : Phrase),
        renameInteraction store mid uid old raw = on_submit_store (mid store) uid old raw)
  ∧ (∀ (store : Ledger) (mid : Ledger → Ledger) (uid : Nat) (t : Phrase),
        removeInteraction store mid uid t = select_remove store uid t)
  ∧ (∀ (store : Ledger) (uid uidB : Nat) (t x : Phrase), uidB ≠ uid →
        alookup uidB store = none →
        alookup uidB (removeInteraction store (fun L => add_thought L uidB x) uid t) = none
      ∧ alookup uidB (removeInteractionRMWSpec store (fun L => add_thought L uidB x) uid t)
          = some [(pystrip x, (1 : Int))]) := by
  refine ⟨fun _ _ _ _ _ => rfl, fun _ _ _ _ => rfl, ?_⟩
  intro store uid uidB t x hne habs
  constructor
  · rw [removeInteraction, select_remove, alookup_aset_ne _ hne]
    exact habs
  · rw [removeInteractionRMWSpec, select_remove, alookup_aset_ne _ hne]
    rw [add_thought]
    have hens : ensure_user_data store uidB = aset uidB [] store := by
      rw [ensure_user_data, if_neg (by simp [habs])]
    rw [hens, agetD, alookup_aset_self, alookup_aset_self]
    rfl

theorem c3_rmw_amended_witness :
    alookup 2 (removeInteraction [(1, [(phCats, 2)])]
        (fun L => add_thought L 2 phDogs) 1 phCats) = none
  ∧ alookup 2 (removeInteractionRMWSpec [(1, [(phCats, 2)])]
        (fun L => add_thought L 2 phDogs) 1 phCats) = some [(pystrip phDogs, (1 : Int))] :=
  c3_rmw_amended.2.2 [(1, [(phCats, 2)])] 1 2 phCats phDogs (by decide) (by decide)

/-- C4, counterexample.  A rescan over a corpus with two recorded occurrences
performs exactly one save (the batched one at the end), not one per
occurrence. -/
theorem c4_scan_batched_cex :
    (scan_result [] 1 [[(1, msgTwoThoughts)]]).2 = 2
  ∧ (scan_events [] 1 [[(1, msgTwoThoughts)]]).countP isSaveEvent = 1
  ∧ ¬ ((scan_events [] 1 [[(1, msgTwoThoughts)]]).countP isSaveEvent
        = (scan_result [] 1 [[(1, msgTwoThoughts)]]).2) := by
  refine ⟨by decide, by decide, by decide⟩

/-- C4, amended.  A full rescan touches the store exactly twice regardless of
the corpus: one load at the start and one batched save of the rebuilt ledger
at the end; the per-occurrence increments happen in memory only. -/
theorem c4_scan_single_save :
    ∀ (store : Ledger) (uid : Nat) (channels : List (List (Nat × List Char))),
      (scan_events store uid channels).countP isSaveEvent = 1
    ∧ (scan_events store uid channels).countP isLoadEvent = 1 := by
  intro store uid channels
  rw [scan_events_shape]
  constructor <;> rfl

/-- C5, counterexample.  An exception raised by save_data propagates out of
scan_existing_messages_for_user before the line is_scanning = False runs
(there is no try/finally), leaving the flag set: the coordinator does not
always return to Idle. -/
theorem c5_flag_stuck_cex :
    scanFlagAfter 1
      (fun a => match a with
        | ScanAction.saveStore => true
        | _ => false) = true := by
  decide

/-- C5, amended.  The coordinator returns to Idle on success and when
failures occur only inside the per-channel try/except (channel reads); an
uncaught error in the status message, load or save ends the execution with
the Scanning flag still set. -/
theorem c5_flag_cleared_amended :
    ∀ (n : Nat) (fails : ScanAction → Bool),
      (∀ a, fails a = true → caughtAction a = true) →
      scanFlagAfter n fails = false := by
  intro n fails h
  have hs : fails ScanAction.sendStatus = false := by
    cases hv : fails ScanAction.sendStatus
    · rfl
    · exact absurd (h _ hv) (by simp [caughtAction])
  have hl : fails ScanAction.loadStore = false := by
    cases hv : fails ScanAction.loadStore
    · rfl
    · exact absurd (h _ hv) (by simp [caughtAction])
  have hsv : fails ScanAction.saveStore = false := by
    cases hv : fails ScanAction.saveStore
    · rfl
    · exact absurd (h _ hv) (by simp [caughtAction])
  have hcf : fails ScanAction.clearFlag = false := by
    cases hv : fails ScanAction.clearFlag
    · rfl
    · exact absurd (h _ hv) (by simp [caughtAction])
  rw [scanFlagAfter, scanProgram, runScanActions_step_ok hs,
    runScanActions_step_ok hl]
  rw [runScanActions_readChannels, runScanActions_step_ok hsv,
    runScanActions_step_ok hcf]
  exact runScanActions_false fails _

theorem c5_flag_cleared_amended_witness :
    scanFlagAfter 2 caughtAction = false :=
  c5_flag_cleared_amended 2 caughtAction (fun _ hv => hv)

/-- C6.  RemoveOneOccurrence is the inverse of RecordOccurrence down to zero:
from any ledger where the phrase is absent for the author, n records followed
by n removes leave it absent (not present at 0); on a present count it
decrements, deleting when the result is ≤ 0; on an absent phrase it leaves
the author's map unchanged. -/
theorem c6_remove_inverse :
    (∀ (L : Ledger) (uid : Nat) (t : Phrase) (n : Nat), 1 ≤ n →
        alookup t (agetD L uid []) = none →
        alookup t (agetD ((fun L => select_remove L uid t)^[n]
          ((fun L => recordOccurrence L uid t)^[n] L)) uid []) = none)
  ∧ (∀ (L : Ledger) (uid : Nat) (t : Phrase) (c : Int),
        NodupKeys (agetD L uid []) →
        alookup t (agetD L uid []) = some c →
        (c - 1 ≤ 0 → alookup t (agetD (select_remove L uid t) uid []) = none)
      ∧ (¬ c - 1 ≤ 0 → alookup t (agetD (select_remove L uid t) uid []) = some (c - 1)))
  ∧ (∀ (L : Ledger) (uid : Nat) (t : Phrase),
        alookup t (agetD L uid []) = none →
        agetD (select_remove L uid t) uid [] = agetD L uid []) := by
  refine ⟨?_, ?_, ?_⟩
  · intro L uid t n hn habs
    obtain ⟨k, rfl⟩ : ∃ k, n = k + 1 := ⟨n - 1, by omega⟩
    rw [agetD_iter_remove, agetD_iter_record, bump_iter_absent k habs,
      remove_iter_absent k habs]
    exact habs
  · intro L uid t c hnd hsome
    constructor
    · intro hle
      rw [agetD_select_remove_self, removeThoughtMap_present hsome, if_pos hle]
      exact alookup_adel_self (nodupKeys_aset hnd)
    · intro hgt
      rw [agetD_select_remove_self, removeThoughtMap_present hsome, if_neg hgt,
        alookup_aset_self]
  · intro L uid t habs
    rw [agetD_select_remove_self, removeThoughtMap_absent habs]

theorem c6_remove_inverse_witness :
    alookup phCats (agetD ((fun L => select_remove L 1 phCats)^[2]
      ((fun L => recordOccurrence L 1 phCats)^[2] ([] : Ledger))) 1 []) = none
  ∧ alookup phCats (agetD (select_remove [(1, [(phCats, 1)])] 1 phCats) 1 []) = none
  ∧ agetD (select_remove ([] : Ledger) 1 phCats) 1 [] = agetD ([] : Ledger) 1 [] :=
  ⟨c6_remove_inverse.1 [] 1 phCats 2 (by norm_num) (by decide),
   (c6_remove_inverse.2.1 [(1, [(phCats, 1)])] 1 phCats 1 (by rw [NodupKeys]; decide)
       (by decide)).1 (by norm_num),
   c6_remove_inverse.2.2 [] 1 phCats (by decide)⟩

/-- C7.  RenameAndMerge: with the old phrase present at count c and the
stripped replacement different from it, the old key is removed and the new
key gets its previous count (0 if absent) plus c; with the stripped
replacement equal to the old phrase the count is preserved; with the old
phrase absent the author's map is unchanged. -/
theorem c7_rename_merge :
    (∀ (L : Ledger) (uid : Nat) (old raw : Phrase) (c : Int),
        NodupKeys (agetD L uid []) →
        alookup old (agetD L uid []) = some c →
        pystrip raw ≠ old →
        alookup old (agetD (on_submit_store L uid old raw) uid []) = none
      ∧ alookup (pystrip raw) (agetD (on_submit_store L uid old raw) uid [])
          = some ((alookup (pystrip raw) (agetD L uid [])).getD 0 + c))
  ∧ (∀ (L : Ledger) (uid : Nat) (old raw : Phrase) (c : Int),
        NodupKeys (agetD L uid []) →
        alookup old (agetD L uid []) = some c →
        pystrip raw = old →
        alookup old (agetD (on_submit_store L uid old raw) uid []) = some c)
  ∧ (∀ (L : Ledger) (uid : Nat) (old raw : Phrase),
        alookup old (agetD L uid []) = none →
        agetD (on_submit_store L uid old raw) uid [] = agetD L uid []) := by
  refine ⟨?_, ?_, ?_⟩
  · intro L uid old raw c hnd hsome hne
    rw [agetD_on_submit_self, renameMergeMap_present hsome]
    constructor
    · rw [alookup_aset_ne _ (fun he => hne he.symm)]
      exact alookup_adel_self hnd
    · rw [alookup_aset_self, agetD, alookup_adel_ne hne]
  · intro L uid old raw c hnd hsome heq
    rw [agetD_on_submit_self, renameMergeMap_present hsome, heq, alookup_aset_self,
      agetD, alookup_adel_self hnd]
    simp
  · intro L uid old raw habs
    rw [agetD_on_submit_self, renameMergeMap_absent habs]

theorem c7_rename_merge_witness :
    alookup phCats (agetD (on_submit_store [(1, [(phCats, 2), (phDogs, 1)])] 1 phCats
        " dogs ".toList) 1 []) = none
  ∧ alookup (pystrip " dogs ".toList) (agetD (on_submit_store
        [(1, [(phCats, 2), (phDogs, 1)])] 1 phCats " dogs ".toList) 1 [])
      = some ((alookup (pystrip " dogs ".toList)
          (agetD [(1, [(phCats, 2), (phDogs, 1)])] 1 [])).getD 0 + 2) :=
  c7_rename_merge.1 [(1, [(phCats, 2), (phDogs, 1)])] 1 phCats " dogs ".toList 2
    (by rw [NodupKeys]; decide) (by decide) (by decide)

/-- C8.  While the global state is already Scanning, any scan attempt -- for
any author and corpus, through the rescan command or the scan function itself
-- is rejected as already-in-progress, mutates nothing, and leaves the flag
(and hence the in-flight scan) untouched. -/
theorem c8_single_flight :
    ∀ (store : Ledger) (uid : Nat) (channels : List (List (Nat × List Char))),
      scan_existing true store uid channels = (true, store, ScanOutcome.alreadyInProgress)
    ∧ rescan_command true store uid channels = (true, store, ScanOutcome.alreadyInProgress) := by
  intro store uid channels
  exact ⟨rfl, rfl⟩

/-- C9, counterexample.  load_data does not fail closed on every corrupt
persisted document: only json.JSONDecodeError is caught, so a present file
whose bytes do not decode (malformed encoding) raises UnicodeDecodeError to
the caller instead of returning the empty ledger. -/
theorem c9_load_fail_closed_cex :
    load_data (FileState.present JsonDoc.undecodable) = LoadResult.unicodeDecodeError
  ∧ load_data (FileState.present JsonDoc.undecodable) ≠ LoadResult.ok (JsonValue.dict []) :=
  ⟨rfl, by decide⟩

/-- C9, amended.  load_data returns the empty ledger when the file is absent
or its decoded text fails JSON parsing (json.JSONDecodeError is caught); a
file whose bytes cannot be decoded raises an uncaught UnicodeDecodeError that
propagates to the caller; a parseable document is returned as parsed,
whatever its shape. -/
theorem c9_load_fail_closed_amended :
    load_data FileState.absent = LoadResult.ok (JsonValue.dict [])
  ∧ load_data (FileState.present JsonDoc.unparsable) = LoadResult.ok (JsonValue.dict [])
  ∧ load_data (FileState.present JsonDoc.undecodable) = LoadResult.unicodeDecodeError
  ∧ ∀ v, load_data (FileState.present (JsonDoc.value v)) = LoadResult.ok v :=
  ⟨rfl, rfl, rfl, fun _ => rfl⟩

/-- C10.  A live message by a bot author performs no ledger load, mutation or
save, whatever the text and the scanning state: the handler returns before
touching the store. -/
theorem c10_bot_messages_ignored :
    ∀ (scanning : Bool) (store : Ledger) (uid : Nat) (text : List Char),
      on_message_store scanning true store uid text = store
    ∧ on_message_events scanning true store uid text = [] := by
  intro scanning store uid text
  constructor
  · rw [on_message_store, if_pos (by simp)]
  · rw [on_message_events, if_pos (by simp)]

end ThoughtBot
